import Mathlib

/-!
Shallow embedding of the `blameazu/minesweeper` repository.

Sources modelled here:
* `src/frontend/src/lib/engine.ts` — the board engine (difficulty table, seeded
  PRNG, mine placement, flood reveal, reveal / flag / chord operations).
* `src/javascript/game.js` — the older frontend's `place_bombs`.
* `src/javascript/scoreboard.js` — the Firebase leaderboard `write` / `load`.
* The match-step sequencing of the FastAPI backend is not present under `src/`;
  it is modelled from the spec (see `MatchLog`).

JavaScript 32-bit integer operations are modelled on `Nat` with explicit
`% 2 ^ 32`; `Math.imul`, `^`, `<<`, `>>>`, `|` agree bit-for-bit with this
unsigned model.  The floating-point expression `Math.floor(rng() * total)`
with `rng() = gen() / 0xffffffff` is modelled by the exact integer floor
`g * total / (2 ^ 32 - 1)`; for the board sizes involved the two agree, in
particular both yield `total` exactly when `g = 0xffffffff`.
-/

namespace Minesweeper

/-- Difficulty keys from `src/frontend/src/types.ts`. -/
inductive DifficultyKey where
  | beginner
  | intermediate
  | expert
  | custom
deriving DecidableEq, Repr

/-- The `status` field of a board state in `engine.ts`. -/
inductive GameStatus where
  | idle
  | playing
  | won
  | lost
deriving DecidableEq, Repr

/-- One cell of the board (`Cell` in `types.ts`). -/
structure Cell where
  x : Nat
  y : Nat
  isMine : Bool
  adjacent : Nat
  revealed : Bool
  flagged : Bool
deriving DecidableEq, Repr

/-- Placeholder returned for an out-of-range cell access.  The JS code indexes
`cells[idx]` only at in-bounds indices on the states it is run on; theorems
carry the corresponding bounds hypotheses. -/
def defaultCell : Cell := ⟨0, 0, false, 0, false, false⟩

/-- Array indexing `cells[i]`, totalised with `defaultCell`. -/
def cellAt (cells : List Cell) (i : Nat) : Cell := cells.getD i defaultCell

/-- From `engine.ts` line 30: `index(x, y, width) = y * width + x`. -/
def index (x y width : Nat) : Nat := y * width + x

/-- The eight neighbour offsets in the `dy`-outer/`dx`-inner order of
`engine.ts` `neighbors`. -/
def neighborOffsets : List (Int × Int) :=
  [(-1, -1), (0, -1), (1, -1), (-1, 0), (1, 0), (-1, 1), (0, 1), (1, 1)]

/-- From `engine.ts`, `neighbors`: in-bounds 8-neighbourhood of `(x, y)`. -/
def neighbors (x y width height : Nat) : List (Nat × Nat) :=
  neighborOffsets.filterMap (fun d =>
    let nx : Int := (x : Int) + d.1
    let ny : Int := (y : Int) + d.2
    if 0 ≤ nx ∧ nx < (width : Int) ∧ 0 ≤ ny ∧ ny < (height : Int) then
      some (nx.toNat, ny.toNat)
    else none)

/-! ### The seeded PRNG (`hashSeed` / `rngFromSeed`, engine.ts lines 12–28) -/

/-- JS `Math.imul` followed by reinterpretation as an unsigned 32-bit value. -/
def imul32 (a b : Nat) : Nat := a * b % 2 ^ 32

/-- The expression `(h << 13) | (h >>> 19)` on a 32-bit value: rotate left by 13. -/
def rotl13 (h : Nat) : Nat := h * 2 ^ 13 % 2 ^ 32 ||| h / 2 ^ 19

/-- The seeding loop of `hashSeed`: the internal state after consuming the
whole seed string.  `charCodeAt` is `Char.toNat` for the BMP strings used as
seeds. -/
def hashSeed (seed : String) : Nat :=
  seed.data.foldl (fun h c => rotl13 (imul32 (h ^^^ c.toNat) 3432918353))
    ((1779033703 : Nat) ^^^ seed.length % 2 ^ 32)

/-- One call of the generator closure returned by `hashSeed`: the returned
value is also the new internal state (`return (h ^= h >>> 16) >>> 0`). -/
def next32 (h : Nat) : Nat :=
  let h1 := imul32 (h ^^^ h / 2 ^ 16) 2246822507
  let h2 := imul32 (h1 ^^^ h1 / 2 ^ 13) 3266489909
  h2 ^^^ h2 / 2 ^ 16

/-- JS `Math.floor(rng() * total)` with `rng() = g / 0xffffffff`, as an exact
integer floor. -/
def pickIndex (g total : Nat) : Nat := g * total / (2 ^ 32 - 1)

/-! ### Mine placement (`placeMines`, engine.ts lines 68–83) -/

/-- The `banned` set: the safe cell's index plus the indices of its in-bounds
neighbours. -/
def bannedSet (width height : Nat) (safe : Option (Nat × Nat)) : Finset Nat :=
  match safe with
  | none => ∅
  | some (x, y) =>
      (neighbors x y width height).foldl (fun s p => insert (index p.1 p.2 width) s)
        {index x y width}

/-- The sampling loop of `placeMines`, fuel-indexed.  The Boolean records
whether the `while` condition became false (i.e. the JS loop has exited);
`(chosen, false)` means the fuel ran out while the JS loop would continue. -/
def placeMinesAux (total m : Nat) (banned : Finset Nat) :
    Nat → Nat → Finset Nat → Finset Nat × Bool
  | 0, _, chosen =>
      (chosen, !decide (chosen.card < m ∧ chosen.card < total - banned.card))
  | fuel + 1, h, chosen =>
      if chosen.card < m ∧ chosen.card < total - banned.card then
        let g := next32 h
        let pick := pickIndex g total
        if pick ∈ banned then placeMinesAux total m banned fuel g chosen
        else placeMinesAux total m banned fuel g (insert pick chosen)
      else (chosen, true)

/-- The function `placeMines(width, height, mines, seed, safe?)`. -/
def placeMines (fuel width height mines : Nat) (seed : String)
    (safe : Option (Nat × Nat)) : Finset Nat × Bool :=
  placeMinesAux (width * height) mines (bannedSet width height safe) fuel
    (hashSeed seed) ∅

/-! ### Boards (`createBoard` / `startBoard`, engine.ts lines 85–115) -/

/-- The record returned by `createBoard` (and rebuilt inside `reveal` before
calling `startBoard`). -/
structure Board0 where
  width : Nat
  height : Nat
  mines : Nat
  seed : String
  cells : List Cell
deriving DecidableEq, Repr

/-- The difficulty table of `engine.ts` lines 3–8, as
`(width, height, mines)`. -/
def difficulties : DifficultyKey → Nat × Nat × Nat
  | .beginner => (9, 9, 10)
  | .intermediate => (20, 20, 50)
  | .expert => (20, 20, 99)
  | .custom => (9, 9, 10)

/-- The optional overrides accepted by `createBoard` / `createEmptyState`. -/
structure BoardOpts where
  width : Option Nat := none
  height : Option Nat := none
  mines : Option Nat := none
  seed : Option String := none

/-- The function `createBoard(difficulty, opts?)`.  The call `randomSeed()` is passed in as
the extra argument `randomSeed` (used only when `opts.seed` is absent). -/
def createBoard (difficulty : DifficultyKey) (opts : BoardOpts)
    (randomSeed : String) : Board0 :=
  let d := difficulties difficulty
  let width := opts.width.getD d.1
  let height := opts.height.getD d.2.1
  let mines := min (opts.mines.getD d.2.2) (width * height - 1)
  let seed := opts.seed.getD randomSeed
  let cells := (List.range (width * height)).map
    (fun i => ⟨i % width, i / width, false, 0, false, false⟩)
  ⟨width, height, mines, seed, cells⟩

/-- JS `cells.map((cell, idx) => …)` with the index threaded explicitly. -/
def mapIdxFrom (f : Nat → Cell → Cell) : Nat → List Cell → List Cell
  | _, [] => []
  | i, c :: cs => f i c :: mapIdxFrom f (i + 1) cs

/-- The `reduce` in `startBoard`: number of mined in-bounds neighbours of
`(x, y)`. -/
def countMineNeighbors (cells : List Cell) (width height x y : Nat) : Nat :=
  ((neighbors x y width height).filter
    (fun p => (cellAt cells (index p.1 p.2 width)).isMine)).length

/-- The deterministic part of `startBoard`: assign `isMine` from a given mine
set, then recompute every `adjacent` count.  (The JS loop mutates `adjacent`
in place but reads only `isMine`, which it never writes, so mapping over the
post-assignment snapshot is exact.) -/
def startBoardWith (b : Board0) (mineSet : Finset Nat) : Board0 :=
  let cells := mapIdxFrom (fun i c => { c with isMine := decide (i ∈ mineSet) }) 0 b.cells
  let cells2 := cells.map
    (fun c => { c with adjacent := countMineNeighbors cells b.width b.height c.x c.y })
  { b with cells := cells2 }

/-- The function `startBoard(board, firstClick)`, fuel-indexed through `placeMines`. -/
def startBoard (fuel : Nat) (b : Board0) (firstClick : Nat × Nat) : Board0 :=
  startBoardWith b (placeMines fuel b.width b.height b.mines b.seed (some firstClick)).1

/-- The `BoardState` record from `types.ts`, as used by the engine operations.
Timestamps (`Date.now()`) are natural numbers supplied by the caller. -/
structure BoardState where
  width : Nat
  height : Nat
  mines : Nat
  cells : List Cell
  seed : String
  startedAt : Option Nat
  endedAt : Option Nat
  status : GameStatus
  difficulty : DifficultyKey
deriving DecidableEq, Repr

/-- The function `createEmptyState(difficulty, opts?)`. -/
def createEmptyState (difficulty : DifficultyKey) (opts : BoardOpts)
    (randomSeed : String) : BoardState :=
  let b := createBoard difficulty opts randomSeed
  ⟨b.width, b.height, b.mines, b.cells, b.seed, none, none, .idle, difficulty⟩

/-! ### Flood reveal (`floodReveal`, engine.ts lines 47–66) -/

/-- The worklist loop of `floodReveal`.  The worklist is a stack with its top
at the head; the JS `forEach` of pushes is mirrored by prepending the reversed
filtered neighbour list.  Out-of-bounds work items are skipped (the engine
only ever enqueues in-bounds coordinates). -/
def flood (width height : Nat) (cells : List Cell) (visited : Finset Nat)
    (work : List (Nat × Nat)) : List Cell :=
  match work with
  | [] => cells
  | (cx, cy) :: rest =>
      if hin : cx < width ∧ cy < height then
        if hv : index cx cy width ∈ visited then flood width height cells visited rest
        else
          if ((cellAt cells (index cx cy width)).flagged ||
              (cellAt cells (index cx cy width)).revealed) = true then
            flood width height cells (insert (index cx cy width) visited) rest
          else
            if ((!(cellAt cells (index cx cy width)).isMine) &&
                (cellAt cells (index cx cy width)).adjacent == 0) = true then
              flood width height
                (cells.set (index cx cy width)
                  { cellAt cells (index cx cy width) with revealed := true })
                (insert (index cx cy width) visited)
                (((neighbors cx cy width height).filter
                  (fun p => index p.1 p.2 width ∉ insert (index cx cy width) visited)).reverse
                  ++ rest)
            else
              flood width height
                (cells.set (index cx cy width)
                  { cellAt cells (index cx cy width) with revealed := true })
                (insert (index cx cy width) visited) rest
      else flood width height cells visited rest
termination_by ((Finset.range (width * height) \ visited).card, work.length)
decreasing_by
  · exact Prod.Lex.right _ (by simp only [List.length_cons]; omega)
  all_goals first
  | exact Prod.Lex.right _ (by simp only [List.length_cons]; omega)
  | · refine Prod.Lex.left _ _ (Finset.card_lt_card ?_)
      refine ⟨Finset.sdiff_subset_sdiff (by rfl) (Finset.subset_insert _ _), fun hsub => ?_⟩
      have h1 : index cx cy width ∈ Finset.range (width * height) \ visited := by
        simp only [Finset.mem_sdiff, Finset.mem_range]
        refine ⟨?_, hv⟩
        have h2 : (cy + 1) * width = cy * width + width := by ring
        have h3 : (cy + 1) * width ≤ height * width := Nat.mul_le_mul_right _ (by omega)
        have h4 : height * width = width * height := Nat.mul_comm _ _
        have h5 : index cx cy width = cy * width + cx := rfl
        omega
      have h2 := hsub h1
      simp at h2

/-- JS `cells.filter((c) => c.revealed).length`. -/
def revealedCount (cells : List Cell) : Nat := (cells.filter (·.revealed)).length

/-! ### The board operations (engine.ts lines 117–195) -/

/-- The operation `reveal(state, x, y)`.  Here `fuel` bounds the mine-placement loop on the
first move; `now` is the value `Date.now()` would return. -/
def reveal (fuel now : Nat) (s : BoardState) (x y : Nat) : BoardState :=
  if s.status = .won ∨ s.status = .lost then s
  else
    let idx := index x y s.width
    let target := cellAt s.cells idx
    if target.revealed || target.flagged then s
    else
      let fm : List Cell × Option Nat :=
        match s.startedAt with
        | none => ((startBoard fuel ⟨s.width, s.height, s.mines, s.seed, s.cells⟩ (x, y)).cells,
                   some now)
        | some t => (s.cells, some t)
      let cells := flood s.width s.height fm.1 ∅ [(x, y)]
      let hitMine := (cellAt cells idx).isMine
      let nonMines : Int := (s.width * s.height : Int) - (s.mines : Int)
      let won := !hitMine && ((revealedCount cells : Int) == nonMines)
      { s with
        cells := cells
        startedAt := fm.2
        endedAt := if won || hitMine then some now else none
        status := if hitMine then .lost else if won then .won else .playing }

/-- The operation `toggleFlag(state, x, y)`. -/
def toggleFlag (s : BoardState) (x y : Nat) : BoardState :=
  if s.status = .won ∨ s.status = .lost then s
  else
    let idx := index x y s.width
    let cell := cellAt s.cells idx
    if cell.revealed then s
    else { s with cells := s.cells.set idx { cell with flagged := !cell.flagged } }

/-- The `for (const [nx, ny] of adj)` loop of `chordReveal`, carrying the
mutated cell array and the `hitMine` flag. -/
def chordLoop (width height : Nat) : List (Nat × Nat) → List Cell → Bool → List Cell × Bool
  | [], cells, hit => (cells, hit)
  | (nx, ny) :: rest, cells, hit =>
      if ((cellAt cells (index nx ny width)).flagged ||
          (cellAt cells (index nx ny width)).revealed) = true then
        chordLoop width height rest cells hit
      else if (cellAt cells (index nx ny width)).isMine = true then
        chordLoop width height rest
          (cells.set (index nx ny width)
            { cellAt cells (index nx ny width) with revealed := true }) true
      else chordLoop width height rest (flood width height cells ∅ [(nx, ny)]) hit

/-- The operation `chordReveal(state, x, y)`. -/
def chordReveal (now : Nat) (s : BoardState) (x y : Nat) : BoardState :=
  if s.status = .won ∨ s.status = .lost then s
  else
    let idx := index x y s.width
    let target := cellAt s.cells idx
    if !target.revealed || target.adjacent == 0 then s
    else
      let adj := neighbors x y s.width s.height
      let flaggedCount := (adj.filter
        (fun p => (cellAt s.cells (index p.1 p.2 s.width)).flagged)).length
      if flaggedCount ≠ target.adjacent then s
      else
        let r := chordLoop s.width s.height adj s.cells false
        let nonMines : Int := (s.width * s.height : Int) - (s.mines : Int)
        let won := !r.2 && ((revealedCount r.1 : Int) == nonMines)
        { s with
          cells := r.1
          endedAt := if won || r.2 then some now else s.endedAt
          status := if r.2 then .lost else if won then .won else s.status }

/-! ### `src/javascript/game.js` — `place_bombs` (lines 84–96)

`Math.random()` picks are supplied as an explicit stream of `(x, y)` pairs;
the recursion stops when the stream runs out (fuel) or `now` reaches
`bombs`. -/

/-- The bomb grid of `game.js` as a predicate on coordinates; `mp[x][y]`. -/
def place_bombs (i j : Nat) (bombs : Nat) :
    List (Nat × Nat) → (Nat × Nat → Bool) → Nat → (Nat × Nat → Bool)
  | [], mp, _ => mp
  | (x, y) :: rest, mp, now =>
      if bombs ≤ now then mp
      else if x = i ∧ y = j then place_bombs i j bombs rest mp now
      else if ((x : Int) - (i : Int)).natAbs ≤ 1 ∧ ((y : Int) - (j : Int)).natAbs ≤ 1 then
        place_bombs i j bombs rest mp now
      else if mp (x, y) then place_bombs i j bombs rest mp now
      else place_bombs i j bombs rest (fun p => if p = (x, y) then true else mp p) (now + 1)

/-! ### Predicates about board states -/

/-- No cell is simultaneously revealed and flagged. -/
def okCells (cells : List Cell) : Prop :=
  ∀ c ∈ cells, ¬(c.revealed = true ∧ c.flagged = true)

/-- Board states reachable from `createEmptyState` by the engine operations
(with arbitrary click coordinates, clock values and fuel bounds). -/
inductive Reachable : BoardState → Prop where
  | init (difficulty : DifficultyKey) (opts : BoardOpts) (randomSeed : String) :
      Reachable (createEmptyState difficulty opts randomSeed)
  | rev (fuel now x y : Nat) {s : BoardState} :
      Reachable s → Reachable (reveal fuel now s x y)
  | flag (x y : Nat) {s : BoardState} :
      Reachable s → Reachable (toggleFlag s x y)
  | chord (now x y : Nat) {s : BoardState} :
      Reachable s → Reachable (chordReveal now s x y)

/-- The `adjacent` counts are honest where it matters for flood expansion:
a zero-adjacent non-mine cell has no mined in-bounds neighbour.  This holds
for every board populated by `startBoard` and is the well-formedness needed
for the win characterisation. -/
def Consistent (width height : Nat) (cells : List Cell) : Prop :=
  ∀ cx, cx < width → ∀ cy, cy < height →
    (cellAt cells (index cx cy width)).adjacent = 0 →
    (cellAt cells (index cx cy width)).isMine = false →
    ∀ p ∈ neighbors cx cy width height,
      (cellAt cells (index p.1 p.2 width)).isMine = false

instance (width height : Nat) (cells : List Cell) :
    Decidable (Consistent width height cells) := by
  unfold Consistent
  infer_instance

/-- "No mine cell is revealed by the move": every mine revealed afterwards was
already revealed before. -/
def NoNewMineRevealed (old new : List Cell) : Prop :=
  ∀ i, i < new.length → (cellAt new i).isMine = true →
    (cellAt new i).revealed = true → (cellAt old i).revealed = true

/-- The board operations touch only `revealed`, monotonically: length and the
other fields are preserved. -/
def FieldsPreserved (old new : List Cell) : Prop :=
  new.length = old.length ∧
  ∀ i : Nat,
    (cellAt new i).isMine = (cellAt old i).isMine ∧
    (cellAt new i).adjacent = (cellAt old i).adjacent ∧
    (cellAt new i).flagged = (cellAt old i).flagged ∧
    ((cellAt old i).revealed = true → (cellAt new i).revealed = true)

/-! ### Concrete states used by witnesses -/

/-- A concrete finished (won) board state. -/
def wonState : BoardState :=
  ⟨1, 1, 0, [⟨0, 0, false, 0, true, false⟩], "s", some 0, some 1, .won, .custom⟩

/-- A 2×2 board with no marks. -/
def detBoardA : Board0 :=
  ⟨2, 2, 1, "z", [⟨0, 0, false, 0, false, false⟩, ⟨1, 0, false, 0, false, false⟩,
    ⟨0, 1, false, 0, false, false⟩, ⟨1, 1, false, 0, false, false⟩]⟩

/-- The same board tuple with differently marked cells. -/
def detBoardB : Board0 :=
  ⟨2, 2, 1, "z", [⟨0, 0, false, 0, false, true⟩, ⟨1, 0, false, 3, true, false⟩,
    ⟨0, 1, true, 0, false, false⟩, ⟨1, 1, false, 0, false, false⟩]⟩

/-- A consistent mid-game 2×2 state: the top-left cell is revealed, the
bottom-left cell is a flagged mine, the two remaining cells are hidden
non-mines. -/
def midState : BoardState :=
  ⟨2, 2, 1,
    [⟨0, 0, false, 1, true, false⟩, ⟨1, 0, false, 1, false, false⟩,
     ⟨0, 1, true, 1, false, true⟩, ⟨1, 1, false, 1, false, false⟩],
    "m", some 0, none, .playing, .custom⟩

end Minesweeper

/-! ### `src/javascript/scoreboard.js` — the Firebase leaderboard

The realtime database is modelled as a finite map from the key path
`"scoreboard/" + diff + "/" + name` — i.e. the pair `(diff, name)` — to the
stored entry.  ISO timestamp strings compare by `<` in JS, which on ASCII
strings is the lexicographic order used here. -/

namespace Scoreboard

/-- A stored leaderboard entry.  Entries written by older clients carry no
`timestamp`; `data.timestamp > timestamp` is then `undefined > string`,
which is `false` in JS — modelled by `tsGT`. -/
structure Entry where
  name : String
  diff : String
  time : Int
  timestamp : Option String
deriving DecidableEq, Repr

/-- JS `<` on strings: lexicographic comparison of code units (for the BMP
strings involved, the characters' code points). -/
def lexLt : List Char → List Char → Bool
  | _, [] => false
  | [], _ :: _ => true
  | a :: as, b :: bs =>
      if a.toNat < b.toNat then true
      else if b.toNat < a.toNat then false
      else lexLt as bs

/-- Comparison `a < b` for JS strings. -/
def strLt (a b : String) : Bool := lexLt a.data b.data

/-- Comparison `a <= b` for JS strings. -/
def strLe (a b : String) : Bool := !strLt b a

/-- JS `data.timestamp > timestamp` (false when the stored entry has none). -/
def tsGT (stored : Option String) (now : String) : Bool :=
  match stored with
  | none => false
  | some t => strLt now t

/-- The database contents, keyed by `(diff, name)`. -/
def Store : Type := String × String → Option Entry

/-- The operation `write(name, diff, time)` (scoreboard.js lines 73–89).  `NaN` has no
counterpart in `Int`; the `isNaN(time)` rejection is not representable and
every modelled time is a number.  `now` is `new Date().toISOString()`. -/
def write (store : Store) (name diff : String) (time : Int) (now : String) : Store :=
  if time < 0 ∨ ¬(diff = "Easy" ∨ diff = "Medium" ∨ diff = "Hard" ∨ diff = "Hell") then store
  else
    let data := store (diff, name)
    let doWrite :=
      match data with
      | none => true
      | some e => decide (time < e.time) || (decide (e.time = time) && tsGT e.timestamp now)
    if doWrite then
      fun k => if k = (diff, name) then some ⟨name, diff, time, some now⟩ else store k
    else store

/-- JS `a.timestamp || new Date(0).toISOString()`. -/
def tsD (o : Option String) : String := o.getD ("1970-01-01T00:00:00.000Z")

/-- The sort comparator of `load` (scoreboard.js lines 98–106): ascending
`time`, ties broken by ascending timestamp (`localeCompare`, which on ISO
timestamp strings agrees with code-unit order). -/
def scoreLe (a b : Entry) : Bool :=
  if a.time = b.time then strLe (tsD a.timestamp) (tsD b.timestamp)
  else decide (a.time < b.time)

/-- The data pipeline of `load` (scoreboard.js lines 91–132): drop invalid
times, sort by the comparator, display the first 20. -/
def load (entries : List Entry) : List Entry :=
  (((entries.filter (fun e => decide (0 ≤ e.time))).mergeSort scoreLe).take 20)

/-- The spec-side upsert condition of the (amended) leaderboard contract:
no existing entry, a strictly better time, or an equal time with a stored
timestamp lying in the future of the current one. -/
def shouldUpsert (old : Option Entry) (time : Int) (now : String) : Prop :=
  old = none ∨ ∃ e, old = some e ∧
    (time < e.time ∨ (e.time = time ∧ tsGT e.timestamp now = true))

instance : ∀ (old : Option Entry) (time : Int) (now : String),
    Decidable (shouldUpsert old time now)
  | none, _, _ => isTrue (Or.inl rfl)
  | some e, time, now =>
      decidable_of_iff (time < e.time ∨ (e.time = time ∧ tsGT e.timestamp now = true)) (by
        constructor
        · intro h; exact Or.inr ⟨e, rfl, h⟩
        · rintro (h | ⟨e', he', h⟩)
          · exact absurd h (by simp)
          · cases he'; exact h)

/-- A difficulty string accepted by `write`. -/
def validDiff (diff : String) : Prop :=
  diff = "Easy" ∨ diff = "Medium" ∨ diff = "Hard" ∨ diff = "Hell"

instance (diff : String) : Decidable (validDiff diff) := by
  unfold validDiff; infer_instance

/-- The amended write rule of the leaderboard, stated in the spec's terms:
a valid submission is upserted exactly under `shouldUpsert`, and everything
else (including invalid submissions) leaves the store unchanged. -/
def writeSpec (store : Store) (name diff : String) (time : Int) (now : String) : Store :=
  if 0 ≤ time ∧ validDiff diff ∧ shouldUpsert (store (diff, name)) time now then
    fun k => if k = (diff, name) then some ⟨name, diff, time, some now⟩ else store k
  else store

end Scoreboard

/-- An empty leaderboard store. -/
def emptyStore : Scoreboard.Store := fun _ => none

/-- A store holding one `Easy` entry for `bob` with time 5 and a timestamp in
the far future. -/
def futureStore : Scoreboard.Store := fun k =>
  if k = ("Easy", "bob") then some ⟨"bob", "Easy", 5, some "9999-01-01T00:00:00.000Z"⟩
  else none

/-! ### Match step sequencing

Modelled from the spec: the backend match engine (`send_step` and the
`seq` allocation of §4.3.1) is not part of the sources under `src/`; only
its launcher script is.  Per the spec, each accepted step of a match is
allocated `max(seq) + 1` under the match's serialization point, regardless
of which player submitted it. -/

namespace MatchLog

/-- An accepted step: the submitting player's id and the allocated `seq`. -/
structure Step where
  player : Nat
  seq : Nat
deriving DecidableEq, Repr

/-- Modelled from the spec: `seq` allocation — `max(seq) + 1` over the
match's existing steps (so the first step gets `1`). -/
def allocSeq (steps : List Step) : Nat :=
  (steps.map Step.seq).foldr max 0 + 1

/-- Modelled from the spec: accepting a step appends it to the match's
append-only log with the next `seq`, atomically under the match lock. -/
def acceptStep (steps : List Step) (player : Nat) : List Step :=
  steps ++ [⟨player, allocSeq steps⟩]

/-- The step log of an active match after the given players' submissions
were accepted in this order. -/
def runSteps (players : List Nat) : List Step :=
  players.foldl acceptStep []

end MatchLog

/-! ## Auxiliary lemmas -/

namespace Scoreboard

theorem lexLt_irrefl : ∀ l, lexLt l l = false
  | [] => rfl
  | a :: as => by simp [lexLt, lexLt_irrefl as]

theorem lexLt_trans : ∀ x y z, lexLt x y = true → lexLt y z = true → lexLt x z = true := by
  intro x
  induction x with
  | nil =>
      intro y z hxy hyz
      cases z with
      | nil => cases y <;> simp [lexLt] at hyz
      | cons c cs => rfl
  | cons a as ih =>
      intro y z hxy hyz
      cases y with
      | nil => simp [lexLt] at hxy
      | cons b bs =>
          cases z with
          | nil => simp [lexLt] at hyz
          | cons c cs =>
              simp only [lexLt] at hxy hyz ⊢
              by_cases h1 : a.toNat < b.toNat
              · by_cases h2 : b.toNat < c.toNat
                · have h3 : a.toNat < c.toNat := by omega
                  simp [h3]
                · by_cases h4 : c.toNat < b.toNat
                  · simp [h2, h4] at hyz
                  · have h3 : a.toNat < c.toNat := by omega
                    simp [h3]
              · by_cases h5 : b.toNat < a.toNat
                · simp [h1, h5] at hxy
                · simp only [if_neg h1, if_neg h5] at hxy
                  by_cases h2 : b.toNat < c.toNat
                  · have h3 : a.toNat < c.toNat := by omega
                    simp [h3]
                  · by_cases h4 : c.toNat < b.toNat
                    · simp [h2, h4] at hyz
                    · simp only [if_neg h2, if_neg h4] at hyz
                      have h6 : ¬a.toNat < c.toNat := by omega
                      have h7 : ¬c.toNat < a.toNat := by omega
                      simp only [if_neg h6, if_neg h7]
                      exact ih bs cs hxy hyz

theorem lexLt_conn : ∀ x y, lexLt x y = false → lexLt y x = false → x = y
  | [], [], _, _ => rfl
  | [], _ :: _, h1, _ => by simp [lexLt] at h1
  | _ :: _, [], _, h2 => by simp [lexLt] at h2
  | a :: as, b :: bs, h1, h2 => by
      simp only [lexLt] at h1 h2
      by_cases hab : a.toNat < b.toNat
      · simp [hab] at h1
      · by_cases hba : b.toNat < a.toNat
        · simp [hba] at h2
        · simp only [if_neg hab, if_neg hba] at h1 h2
          have he : a.toNat = b.toNat := by omega
          have he' : a = b := by
            apply Char.ext
            apply UInt32.toNat.inj
            unfold Char.toNat at he
            exact he
          rw [he', lexLt_conn as bs h1 h2]

theorem strLe_trans (a b c : String) (h1 : strLe a b = true) (h2 : strLe b c = true) :
    strLe a c = true := by
  unfold strLe strLt at *
  simp only [Bool.not_eq_true'] at *
  by_cases hca : lexLt c.data a.data = true
  · by_cases hab : lexLt a.data b.data = true
    · have h3 := lexLt_trans _ _ _ hca hab
      rw [h2] at h3
      cases h3
    · have hab' : lexLt a.data b.data = false := by
        cases hx : lexLt a.data b.data
        · rfl
        · exact absurd hx hab
      have he : a.data = b.data := lexLt_conn _ _ hab' h1
      rw [he] at hca
      rw [h2] at hca
      cases hca
  · cases hx : lexLt c.data a.data
    · rfl
    · exact absurd hx hca

theorem strLe_total (a b : String) : (strLe a b || strLe b a) = true := by
  unfold strLe strLt
  by_cases h : lexLt b.data a.data = true
  · by_cases h2 : lexLt a.data b.data = true
    · have h3 := lexLt_trans _ _ _ h h2
      rw [lexLt_irrefl] at h3
      cases h3
    · have h2' : lexLt a.data b.data = false := by
        cases hx : lexLt a.data b.data
        · rfl
        · exact absurd hx h2
      simp [h2']
  · have h' : lexLt b.data a.data = false := by
      cases hx : lexLt b.data a.data
      · rfl
      · exact absurd hx h
    simp [h']

theorem scoreLe_trans (a b c : Entry) (hab : scoreLe a b = true) (hbc : scoreLe b c = true) :
    scoreLe a c = true := by
  by_cases h1 : a.time = b.time <;> by_cases h2 : b.time = c.time
  · have h3 : a.time = c.time := h1.trans h2
    simp only [scoreLe, if_pos h1, if_pos h2, if_pos h3] at *
    exact strLe_trans _ _ _ hab hbc
  · simp only [scoreLe, if_pos h1, if_neg h2, decide_eq_true_eq] at hab hbc
    have h4 : ¬(a.time = c.time) := by omega
    simp only [scoreLe, if_neg h4, decide_eq_true_eq]
    omega
  · simp only [scoreLe, if_neg h1, if_pos h2, decide_eq_true_eq] at hab hbc
    have h4 : ¬(a.time = c.time) := by omega
    simp only [scoreLe, if_neg h4, decide_eq_true_eq]
    omega
  · simp only [scoreLe, if_neg h1, if_neg h2, decide_eq_true_eq] at hab hbc
    have h4 : ¬(a.time = c.time) := by omega
    simp only [scoreLe, if_neg h4, decide_eq_true_eq]
    omega

theorem scoreLe_total (a b : Entry) : (scoreLe a b || scoreLe b a) = true := by
  by_cases h : a.time = b.time
  · simp only [scoreLe, if_pos h, if_pos h.symm]
    exact strLe_total (tsD a.timestamp) (tsD b.timestamp)
  · have h' : ¬(b.time = a.time) := fun hh => h hh.symm
    simp only [scoreLe, if_neg h, if_neg h', decide_eq_true_eq, Bool.or_eq_true]
    omega

end Scoreboard

namespace MatchLog

theorem foldr_max_init (l : List Nat) (c : Nat) :
    l.foldr max c = max c (l.foldr max 0) := by
  induction l with
  | nil => simp
  | cons a t ih => simp only [List.foldr_cons, ih]; omega

theorem foldr_max_range' (n : Nat) : (List.range' 1 n).foldr max 0 = n := by
  induction n with
  | zero => simp
  | succ k ih =>
      rw [List.range'_concat, List.foldr_append]
      simp only [List.foldr_cons, List.foldr_nil]
      rw [foldr_max_init, ih]
      omega

theorem runSteps_from (ps : List Nat) : ∀ (acc : List Step) (n : Nat),
    acc.map Step.seq = List.range' 1 n →
    (ps.foldl acceptStep acc).map Step.seq = List.range' 1 (n + ps.length) := by
  induction ps with
  | nil => intro acc n h; simpa using h
  | cons p t ih =>
      intro acc n h
      have halloc : allocSeq acc = n + 1 := by
        unfold allocSeq; rw [h, foldr_max_range']
      have hstep : (acceptStep acc p).map Step.seq = List.range' 1 (n + 1) := by
        unfold acceptStep
        rw [List.map_append, h, List.range'_concat]
        simp [halloc, Nat.add_comm]
      have := ih (acceptStep acc p) (n + 1) hstep
      simpa [Nat.add_assoc, Nat.add_comm, Nat.add_left_comm] using this

end MatchLog

namespace Minesweeper

theorem mem_foldl_insert_of_mem_init (w : Nat) :
    ∀ (l : List (Nat × Nat)) (s : Finset Nat) (i : Nat), i ∈ s →
      i ∈ l.foldl (fun s p => insert (index p.1 p.2 w) s) s := by
  intro l
  induction l with
  | nil => intro s i hi; exact hi
  | cons p t ih =>
      intro s i hi
      exact ih _ _ (Finset.mem_insert_of_mem hi)

theorem mem_foldl_insert_of_mem_list (w : Nat) :
    ∀ (l : List (Nat × Nat)) (s : Finset Nat) (p : Nat × Nat), p ∈ l →
      index p.1 p.2 w ∈ l.foldl (fun s p => insert (index p.1 p.2 w) s) s := by
  intro l
  induction l with
  | nil => intro s p hp; cases hp
  | cons q t ih =>
      intro s p hp
      rcases List.mem_cons.mp hp with h | h
      · subst h
        exact mem_foldl_insert_of_mem_init w t _ _ (Finset.mem_insert_self _ _)
      · exact ih _ _ h

theorem safe_mem_bannedSet (w h x y : Nat) :
    index x y w ∈ bannedSet w h (some (x, y)) :=
  mem_foldl_insert_of_mem_init w _ _ _ (Finset.mem_singleton_self _)

theorem neighbor_mem_bannedSet (w h x y : Nat) (p : Nat × Nat)
    (hp : p ∈ neighbors x y w h) :
    index p.1 p.2 w ∈ bannedSet w h (some (x, y)) :=
  mem_foldl_insert_of_mem_list w _ _ _ hp

theorem placeMinesAux_avoids_banned (total m : Nat) (banned : Finset Nat) :
    ∀ (fuel h : Nat) (chosen : Finset Nat) (i : Nat), i ∈ banned → i ∉ chosen →
      i ∉ (placeMinesAux total m banned fuel h chosen).1 := by
  intro fuel
  induction fuel with
  | zero => intro h chosen i _ hni; exact hni
  | succ f ih =>
      intro h chosen i hib hni
      unfold placeMinesAux
      by_cases hc : chosen.card < m ∧ chosen.card < total - banned.card
      · rw [if_pos hc]
        by_cases hp : pickIndex (next32 h) total ∈ banned
        · rw [if_pos hp]
          exact ih _ _ _ hib hni
        · rw [if_neg hp]
          refine ih _ _ _ hib ?_
          intro hmem
          rcases Finset.mem_insert.mp hmem with h1 | h1
          · subst h1; exact hp hib
          · exact hni h1
      · rw [if_neg hc]
        exact hni

theorem mapIdxFrom_length (f : Nat → Cell → Cell) :
    ∀ (l : List Cell) (n : Nat), (mapIdxFrom f n l).length = l.length := by
  intro l
  induction l with
  | nil => intro n; rfl
  | cons c cs ih => intro n; simp [mapIdxFrom, ih]

theorem cellAt_mapIdxFrom (f : Nat → Cell → Cell) :
    ∀ (l : List Cell) (n i : Nat),
      cellAt (mapIdxFrom f n l) i =
        if i < l.length then f (n + i) (cellAt l i) else defaultCell := by
  intro l
  induction l with
  | nil => intro n i; simp [mapIdxFrom, cellAt]
  | cons c cs ih =>
      intro n i
      cases i with
      | zero => simp [mapIdxFrom, cellAt]
      | succ k =>
          have := ih (n + 1) k
          simp only [mapIdxFrom, cellAt, List.getD_cons_succ, List.length_cons] at *
          rw [this]
          have harith : n + 1 + k = n + (k + 1) := by omega
          rw [harith]
          by_cases hk : k < cs.length
          · rw [if_pos hk, if_pos (by omega)]
          · rw [if_neg hk, if_neg (by omega)]

theorem cellAt_map (g : Cell → Cell) :
    ∀ (l : List Cell) (i : Nat),
      cellAt (l.map g) i = if i < l.length then g (cellAt l i) else defaultCell := by
  intro l
  induction l with
  | nil => intro i; simp [cellAt]
  | cons c cs ih =>
      intro i
      cases i with
      | zero => simp [cellAt]
      | succ k =>
          have := ih k
          simp only [List.map_cons, cellAt, List.getD_cons_succ, List.length_cons] at *
          rw [this]
          by_cases hk : k < cs.length
          · rw [if_pos hk, if_pos (by omega)]
          · rw [if_neg hk, if_neg (by omega)]

theorem startBoardWith_isMine_mem (b : Board0) (ms : Finset Nat) (i : Nat)
    (hM : (cellAt (startBoardWith b ms).cells i).isMine = true) : i ∈ ms := by
  unfold startBoardWith at hM
  simp only [cellAt_map, mapIdxFrom_length, cellAt_mapIdxFrom] at hM
  by_cases hi : i < b.cells.length
  · rw [if_pos hi, if_pos hi] at hM
    simp only [Nat.zero_add] at hM
    exact of_decide_eq_true hM
  · rw [if_neg hi] at hM
    cases hM

/-- Outside the 3×3 box around the first click, `place_bombs` never plants a
bomb inside the box: the grid value there is whatever it was initially. -/
theorem place_bombs_box (i j bombs : Nat) :
    ∀ (stream : List (Nat × Nat)) (mp : Nat × Nat → Bool) (now : Nat) (q : Nat × Nat),
      ((q.1 : Int) - (i : Int)).natAbs ≤ 1 → ((q.2 : Int) - (j : Int)).natAbs ≤ 1 →
      place_bombs i j bombs stream mp now q = mp q := by
  intro stream
  induction stream with
  | nil => intro mp now q _ _; rfl
  | cons xy rest ih =>
      obtain ⟨x, y⟩ := xy
      intro mp now q hq1 hq2
      unfold place_bombs
      by_cases h0 : bombs ≤ now
      · rw [if_pos h0]
      · rw [if_neg h0]
        by_cases h1 : x = i ∧ y = j
        · rw [if_pos h1]
          exact ih mp now q hq1 hq2
        · rw [if_neg h1]
          by_cases h2 : ((x : Int) - (i : Int)).natAbs ≤ 1 ∧ ((y : Int) - (j : Int)).natAbs ≤ 1
          · rw [if_pos h2]
            exact ih mp now q hq1 hq2
          · rw [if_neg h2]
            by_cases h3 : mp (x, y) = true
            · rw [if_pos h3]
              exact ih mp now q hq1 hq2
            · rw [if_neg h3]
              rw [ih _ _ q hq1 hq2]
              have hne : q ≠ (x, y) := by
                intro he
                subst he
                exact h2 ⟨hq1, hq2⟩
              rw [if_neg hne]

theorem mapIdxFrom_map_isMine (ms : Finset Nat) :
    ∀ (l : List Cell) (n : Nat),
      (mapIdxFrom (fun i c => { c with isMine := decide (i ∈ ms) }) n l).map Cell.isMine
        = (List.range' n l.length).map (fun i => decide (i ∈ ms)) := by
  intro l
  induction l with
  | nil => intro n; rfl
  | cons c cs ih =>
      intro n
      simp only [mapIdxFrom, List.map_cons, List.length_cons, List.range'_succ]
      rw [ih (n + 1)]

theorem startBoardWith_map_isMine (b : Board0) (ms : Finset Nat) :
    (startBoardWith b ms).cells.map Cell.isMine
      = (List.range' 0 b.cells.length).map (fun i => decide (i ∈ ms)) := by
  unfold startBoardWith
  rw [List.map_map]
  have hcomp : ∀ cs : List Cell, (Cell.isMine ∘ fun c : Cell =>
      { c with adjacent := countMineNeighbors cs b.width b.height c.x c.y }) = Cell.isMine :=
    fun _ => rfl
  rw [hcomp, mapIdxFrom_map_isMine]

/-! ### Lemmas for the win characterisation (C4) -/

theorem index_lt_of_lt {x y width height : Nat} (hx : x < width) (hy : y < height) :
    index x y width < width * height := by
  have h2 : (y + 1) * width = y * width + width := by ring
  have h3 : (y + 1) * width ≤ height * width := Nat.mul_le_mul_right _ (by omega)
  have h4 : height * width = width * height := Nat.mul_comm _ _
  have h5 : index x y width = y * width + x := rfl
  omega

theorem cellAt_set (l : List Cell) (i j : Nat) (a : Cell) :
    cellAt (l.set i a) j = if i = j ∧ j < l.length then a else cellAt l j := by
  unfold cellAt
  rw [List.getD_eq_getElem?_getD, List.getD_eq_getElem?_getD, List.getElem?_set]
  by_cases hij : i = j
  · subst hij
    by_cases hi : i < l.length
    · rw [if_pos rfl, if_pos hi, if_pos ⟨rfl, hi⟩]
      rfl
    · rw [if_pos rfl, if_neg hi, if_neg (fun h => hi h.2)]
      rw [List.getElem?_eq_none (by omega)]
  · rw [if_neg hij, if_neg (fun h => hij h.1)]

theorem fieldsPreserved_refl (l : List Cell) : FieldsPreserved l l :=
  ⟨rfl, fun _ => ⟨rfl, rfl, rfl, fun h => h⟩⟩

theorem fieldsPreserved_trans {a b c : List Cell}
    (h1 : FieldsPreserved a b) (h2 : FieldsPreserved b c) : FieldsPreserved a c := by
  refine ⟨h2.1.trans h1.1, fun i => ?_⟩
  obtain ⟨m1, a1, f1, r1⟩ := h1.2 i
  obtain ⟨m2, a2, f2, r2⟩ := h2.2 i
  exact ⟨m2.trans m1, a2.trans a1, f2.trans f1, fun h => r2 (r1 h)⟩

theorem fieldsPreserved_set_reveal (cells : List Cell) (i : Nat) :
    FieldsPreserved cells (cells.set i { cellAt cells i with revealed := true }) := by
  refine ⟨List.length_set _ _ _, fun j => ?_⟩
  rw [cellAt_set]
  by_cases h : i = j ∧ j < cells.length
  · rw [if_pos h]
    obtain ⟨hij, -⟩ := h
    subst hij
    exact ⟨rfl, rfl, rfl, fun _ => rfl⟩
  · rw [if_neg h]
    exact ⟨rfl, rfl, rfl, fun h => h⟩

theorem consistent_of_fieldsPreserved {width height : Nat} {old new : List Cell}
    (hf : FieldsPreserved old new) (hC : Consistent width height old) :
    Consistent width height new := by
  intro cx hcx cy hcy hadj hmine p hp
  rw [(hf.2 _).1]
  refine hC cx hcx cy hcy ?_ ?_ p hp
  · rw [← (hf.2 _).2.1]; exact hadj
  · rw [← (hf.2 _).1]; exact hmine

theorem cellAt_eq_default (l : List Cell) (i : Nat) (h : ¬i < l.length) :
    cellAt l i = defaultCell := by
  unfold cellAt
  rw [List.getD_eq_getElem?_getD, List.getElem?_eq_none (by omega)]
  rfl

theorem flood_fields (width height : Nat) :
    ∀ (cells : List Cell) (visited : Finset Nat) (work : List (Nat × Nat)),
      FieldsPreserved cells (flood width height cells visited work) := by
  intro cells visited work
  induction cells, visited, work using flood.induct width height with
  | case1 cells visited => rw [flood]; exact fieldsPreserved_refl _
  | case2 cells visited cx cy rest hin hv ih =>
      rw [flood, dif_pos hin, dif_pos hv]; exact ih
  | case3 cells visited cx cy rest hin hv hbr ih =>
      rw [flood, dif_pos hin, dif_neg hv, if_pos hbr]; exact ih
  | case4 cells visited cx cy rest hin hv hbr hz ih =>
      rw [flood, dif_pos hin, dif_neg hv, if_neg hbr, if_pos hz]
      exact fieldsPreserved_trans (fieldsPreserved_set_reveal _ _) ih
  | case5 cells visited cx cy rest hin hv hbr hz ih =>
      rw [flood, dif_pos hin, dif_neg hv, if_neg hbr, if_neg hz]
      exact fieldsPreserved_trans (fieldsPreserved_set_reveal _ _) ih
  | case6 cells visited cx cy rest hin ih =>
      rw [flood, dif_neg hin]; exact ih

theorem flood_safe (width height : Nat) :
    ∀ (cells : List Cell) (visited : Finset Nat) (work : List (Nat × Nat)),
      Consistent width height cells →
      (∀ p ∈ work, (cellAt cells (index p.1 p.2 width)).isMine = false) →
      ∀ i, (cellAt (flood width height cells visited work) i).revealed = true →
        (cellAt cells i).revealed = true ∨ (cellAt cells i).isMine = false := by
  intro cells visited work
  induction cells, visited, work using flood.induct width height with
  | case1 cells visited =>
      intro _ _ i h
      rw [flood] at h
      exact Or.inl h
  | case2 cells visited cx cy rest hin hv ih =>
      intro hC hwork i h
      rw [flood, dif_pos hin, dif_pos hv] at h
      exact ih hC (fun p hp => hwork p (List.mem_cons_of_mem _ hp)) i h
  | case3 cells visited cx cy rest hin hv hbr ih =>
      intro hC hwork i h
      rw [flood, dif_pos hin, dif_neg hv, if_pos hbr] at h
      exact ih hC (fun p hp => hwork p (List.mem_cons_of_mem _ hp)) i h
  | case4 cells visited cx cy rest hin hv hbr hz ih =>
      intro hC hwork i h
      rw [flood, dif_pos hin, dif_neg hv, if_neg hbr, if_pos hz] at h
      have hzparts : (cellAt cells (index cx cy width)).isMine = false ∧
          (cellAt cells (index cx cy width)).adjacent = 0 := by
        simp only [Bool.and_eq_true, Bool.not_eq_true', beq_iff_eq] at hz
        exact hz
      have hfset := fieldsPreserved_set_reveal cells (index cx cy width)
      have hCset := consistent_of_fieldsPreserved hfset hC
      have hwork' : ∀ p ∈ (((neighbors cx cy width height).filter
          (fun p => index p.1 p.2 width ∉ insert (index cx cy width) visited)).reverse ++ rest),
          (cellAt (cells.set (index cx cy width)
            { cellAt cells (index cx cy width) with revealed := true })
            (index p.1 p.2 width)).isMine = false := by
        intro p hp
        rw [(hfset.2 _).1]
        rcases List.mem_append.mp hp with h1 | h1
        · have h2 : p ∈ neighbors cx cy width height :=
            (List.mem_filter.mp (List.mem_reverse.mp h1)).1
          exact hC cx hin.1 cy hin.2 hzparts.2 hzparts.1 p h2
        · exact hwork p (List.mem_cons_of_mem _ h1)
      rcases ih hCset hwork' i h with h1 | h1
      · rw [cellAt_set] at h1
        by_cases hcase : index cx cy width = i ∧ i < cells.length
        · obtain ⟨hidx, -⟩ := hcase
          subst hidx
          exact Or.inr hzparts.1
        · rw [if_neg hcase] at h1
          exact Or.inl h1
      · rw [(hfset.2 i).1] at h1
        exact Or.inr h1
  | case5 cells visited cx cy rest hin hv hbr hz ih =>
      intro hC hwork i h
      rw [flood, dif_pos hin, dif_neg hv, if_neg hbr, if_neg hz] at h
      have hmine0 : (cellAt cells (index cx cy width)).isMine = false :=
        hwork (cx, cy) (List.mem_cons_self _ _)
      have hfset := fieldsPreserved_set_reveal cells (index cx cy width)
      have hCset := consistent_of_fieldsPreserved hfset hC
      have hwork' : ∀ p ∈ rest, (cellAt (cells.set (index cx cy width)
          { cellAt cells (index cx cy width) with revealed := true })
          (index p.1 p.2 width)).isMine = false := by
        intro p hp
        rw [(hfset.2 _).1]
        exact hwork p (List.mem_cons_of_mem _ hp)
      rcases ih hCset hwork' i h with h1 | h1
      · rw [cellAt_set] at h1
        by_cases hcase : index cx cy width = i ∧ i < cells.length
        · obtain ⟨hidx, -⟩ := hcase
          subst hidx
          exact Or.inr hmine0
        · rw [if_neg hcase] at h1
          exact Or.inl h1
      · rw [(hfset.2 i).1] at h1
        exact Or.inr h1
  | case6 cells visited cx cy rest hin ih =>
      intro hC hwork i h
      rw [flood, dif_neg hin] at h
      exact ih hC (fun p hp => hwork p (List.mem_cons_of_mem _ hp)) i h

theorem flood_start_revealed (width height : Nat) (cells : List Cell) (x y : Nat)
    (hx : x < width) (hy : y < height)
    (hf : (cellAt cells (index x y width)).flagged = false)
    (hlen : index x y width < cells.length) :
    (cellAt (flood width height cells ∅ [(x, y)]) (index x y width)).revealed = true := by
  rw [flood, dif_pos ⟨hx, hy⟩, dif_neg (Finset.not_mem_empty _)]
  by_cases hbr : ((cellAt cells (index x y width)).flagged ||
      (cellAt cells (index x y width)).revealed) = true
  · rw [if_pos hbr, flood]
    simp only [hf, Bool.false_or] at hbr
    exact hbr
  · rw [if_neg hbr]
    have hset : (cellAt (cells.set (index x y width)
        { cellAt cells (index x y width) with revealed := true }) (index x y width)).revealed
        = true := by
      rw [cellAt_set, if_pos ⟨rfl, hlen⟩]
    by_cases hz : ((!(cellAt cells (index x y width)).isMine) &&
        ((cellAt cells (index x y width)).adjacent == 0)) = true
    · rw [if_pos hz]
      exact ((flood_fields width height _ _ _).2 _).2.2.2 hset
    · rw [if_neg hz]
      exact ((flood_fields width height _ _ _).2 _).2.2.2 hset

theorem chordLoop_fields (width height : Nat) :
    ∀ (items : List (Nat × Nat)) (cells : List Cell) (hit : Bool),
      FieldsPreserved cells (chordLoop width height items cells hit).1 := by
  intro items
  induction items with
  | nil => intro cells hit; exact fieldsPreserved_refl _
  | cons p rest ih =>
      obtain ⟨nx, ny⟩ := p
      intro cells hit
      unfold chordLoop
      by_cases h1 : ((cellAt cells (index nx ny width)).flagged ||
          (cellAt cells (index nx ny width)).revealed) = true
      · rw [if_pos h1]; exact ih _ _
      · rw [if_neg h1]
        by_cases h2 : (cellAt cells (index nx ny width)).isMine = true
        · rw [if_pos h2]
          exact fieldsPreserved_trans (fieldsPreserved_set_reveal _ _) (ih _ _)
        · rw [if_neg h2]
          exact fieldsPreserved_trans (flood_fields _ _ _ _ _) (ih _ _)

theorem chordLoop_hit_true (width height : Nat) :
    ∀ (items : List (Nat × Nat)) (cells : List Cell),
      (chordLoop width height items cells true).2 = true := by
  intro items
  induction items with
  | nil => intro cells; rfl
  | cons p rest ih =>
      obtain ⟨nx, ny⟩ := p
      intro cells
      unfold chordLoop
      by_cases h1 : ((cellAt cells (index nx ny width)).flagged ||
          (cellAt cells (index nx ny width)).revealed) = true
      · rw [if_pos h1]; exact ih _
      · rw [if_neg h1]
        by_cases h2 : (cellAt cells (index nx ny width)).isMine = true
        · rw [if_pos h2]; exact ih _
        · rw [if_neg h2]; exact ih _

theorem chordLoop_safe (width height : Nat) :
    ∀ (items : List (Nat × Nat)) (cells : List Cell),
      Consistent width height cells →
      (chordLoop width height items cells false).2 = false →
      ∀ i, (cellAt (chordLoop width height items cells false).1 i).revealed = true →
        (cellAt cells i).revealed = true ∨ (cellAt cells i).isMine = false := by
  intro items
  induction items with
  | nil => intro cells _ _ i h; exact Or.inl h
  | cons p rest ih =>
      obtain ⟨nx, ny⟩ := p
      intro cells hC hhit i h
      unfold chordLoop at hhit h
      by_cases h1 : ((cellAt cells (index nx ny width)).flagged ||
          (cellAt cells (index nx ny width)).revealed) = true
      · rw [if_pos h1] at hhit h
        exact ih cells hC hhit i h
      · rw [if_neg h1] at hhit h
        by_cases h2 : (cellAt cells (index nx ny width)).isMine = true
        · rw [if_pos h2] at hhit
          rw [chordLoop_hit_true] at hhit
          cases hhit
        · rw [if_neg h2] at hhit h
          have hfm := flood_fields width height cells ∅ [(nx, ny)]
          have hCm := consistent_of_fieldsPreserved hfm hC
          rcases ih _ hCm hhit i h with h3 | h3
          · refine flood_safe width height cells ∅ [(nx, ny)] hC ?_ i h3
            intro q hq
            have : q = (nx, ny) := by simpa using hq
            subst this
            cases hmm : (cellAt cells (index nx ny width)).isMine
            · rfl
            · exact absurd hmm h2
          · rw [(hfm.2 i).1] at h3
            exact Or.inr h3

theorem chordLoop_hit_new_mine (width height : Nat) :
    ∀ (items : List (Nat × Nat)) (cells : List Cell),
      (chordLoop width height items cells false).2 = true →
      ∃ i, i < cells.length ∧ (cellAt cells i).isMine = true ∧
        (cellAt cells i).revealed = false ∧
        (cellAt (chordLoop width height items cells false).1 i).revealed = true := by
  intro items
  induction items with
  | nil =>
      intro cells h
      unfold chordLoop at h
      cases h
  | cons p rest ih =>
      obtain ⟨nx, ny⟩ := p
      intro cells h
      unfold chordLoop at h ⊢
      by_cases h1 : ((cellAt cells (index nx ny width)).flagged ||
          (cellAt cells (index nx ny width)).revealed) = true
      · rw [if_pos h1] at h ⊢
        exact ih cells h
      · rw [if_neg h1] at h ⊢
        by_cases h2 : (cellAt cells (index nx ny width)).isMine = true
        · rw [if_pos h2] at h ⊢
          have hlen : index nx ny width < cells.length := by
            by_contra hli
            rw [cellAt_eq_default _ _ hli] at h2
            cases h2
          have hrev0 : (cellAt cells (index nx ny width)).revealed = false := by
            simp only [Bool.or_eq_true, not_or, Bool.not_eq_true] at h1
            exact h1.2
          have hset : (cellAt (cells.set (index nx ny width)
              { cellAt cells (index nx ny width) with revealed := true })
              (index nx ny width)).revealed = true := by
            rw [cellAt_set, if_pos ⟨rfl, hlen⟩]
          refine ⟨index nx ny width, hlen, h2, hrev0, ?_⟩
          exact ((chordLoop_fields width height rest _ true).2 _).2.2.2 hset
        · rw [if_neg h2] at h ⊢
          have hfm := flood_fields width height cells ∅ [(nx, ny)]
          obtain ⟨i, hlen, hmine, hrev, hfin⟩ := ih _ h
          refine ⟨i, ?_, ?_, ?_, hfin⟩
          · rw [hfm.1] at hlen; exact hlen
          · rw [(hfm.2 i).1] at hmine; exact hmine
          · cases hcr : (cellAt cells i).revealed
            · rfl
            · have := (hfm.2 i).2.2.2 hcr
              rw [this] at hrev
              cases hrev

/-! ## Claims -/

-- concrete evaluation sanity checks of the embedded PRNG loop
example : (placeMines 100 3 3 2 "a" none).2 = true := by decide
example : (placeMines 100 3 3 2 "a" none).1.card = 2 := by decide

/-- C3: For every board created from a named difficulty key without explicit
overrides, the `(width, height, mines)` tuple equals the fixed table:
beginner → (9, 9, 10), intermediate → (20, 20, 50), expert → (20, 20, 99). -/
theorem c3_difficulty_tuples (rs : String) :
    ((createBoard .beginner {} rs).width, (createBoard .beginner {} rs).height,
      (createBoard .beginner {} rs).mines) = (9, 9, 10) ∧
    ((createBoard .intermediate {} rs).width, (createBoard .intermediate {} rs).height,
      (createBoard .intermediate {} rs).mines) = (20, 20, 50) ∧
    ((createBoard .expert {} rs).width, (createBoard .expert {} rs).height,
      (createBoard .expert {} rs).mines) = (20, 20, 99) :=
  ⟨rfl, rfl, rfl⟩

/-- C10: A finished game is immutable: when the status is `won` or `lost`,
each of `reveal`, `toggleFlag` and `chordReveal` returns the state
unchanged. -/
theorem c10_finished_state_immutable (fuel now : Nat) (s : BoardState) (x y : Nat)
    (h : s.status = .won ∨ s.status = .lost) :
    reveal fuel now s x y = s ∧ toggleFlag s x y = s ∧ chordReveal now s x y = s := by
  refine ⟨?_, ?_, ?_⟩
  · unfold reveal; rw [if_pos h]
  · unfold toggleFlag; rw [if_pos h]
  · unfold chordReveal; rw [if_pos h]

/-- Witness for C10 at a concrete won state. -/
theorem c10_witness :
    reveal 3 7 wonState 0 0 = wonState ∧ toggleFlag wonState 0 0 = wonState ∧
      chordReveal 7 wonState 0 0 = wonState :=
  c10_finished_state_immutable 3 7 wonState 0 0 (Or.inl rfl)

/-- C1: the mine set produced at the first reveal never contains the safe
cell's index nor the index of any of its in-bounds neighbours, so the board
populated by `startBoard` has no mine there (engine.ts); likewise the older
frontend's `place_bombs` never plants a bomb in the 3×3 box around the first
click (game.js). -/
theorem c1_safe_start_not_mined (fuel : Nat) (b : Board0) (x y : Nat) :
    (∀ p ∈ (x, y) :: neighbors x y b.width b.height,
      index p.1 p.2 b.width ∉
        (placeMines fuel b.width b.height b.mines b.seed (some (x, y))).1 ∧
      (cellAt (startBoard fuel b (x, y)).cells (index p.1 p.2 b.width)).isMine = false) ∧
    (∀ (bombs : Nat) (stream : List (Nat × Nat)) (q : Nat × Nat),
      ((q.1 : Int) - (x : Int)).natAbs ≤ 1 → ((q.2 : Int) - (y : Int)).natAbs ≤ 1 →
      place_bombs x y bombs stream (fun _ => false) 0 q = false) := by
  constructor
  · intro p hp
    have hbanned : index p.1 p.2 b.width ∈ bannedSet b.width b.height (some (x, y)) := by
      rcases List.mem_cons.mp hp with h | h
      · subst h; exact safe_mem_bannedSet _ _ _ _
      · exact neighbor_mem_bannedSet _ _ _ _ _ h
    have hnot : index p.1 p.2 b.width ∉
        (placeMines fuel b.width b.height b.mines b.seed (some (x, y))).1 :=
      placeMinesAux_avoids_banned _ _ _ _ _ _ _ hbanned (Finset.not_mem_empty _)
    refine ⟨hnot, ?_⟩
    cases hM : (cellAt (startBoard fuel b (x, y)).cells (index p.1 p.2 b.width)).isMine
    · rfl
    · exact absurd (startBoardWith_isMine_mem _ _ _ hM) hnot
  · intro bombs stream q hq1 hq2
    exact place_bombs_box x y bombs stream _ 0 q hq1 hq2

/-- Witness for C1: a 3×3 beginner-style board, first click in the centre. -/
theorem c1_witness :
    index 0 0 3 ∉ (placeMines 50 3 3 2 "a" (some (1, 1))).1 ∧
    (cellAt (startBoard 50 ⟨3, 3, 2, "a", (createBoard .custom ⟨some 3, some 3, some 2, none⟩ "a").cells⟩ (1, 1)).cells (index 0 0 3)).isMine = false := by
  have h := (c1_safe_start_not_mined 50
    ⟨3, 3, 2, "a", (createBoard .custom ⟨some 3, some 3, some 2, none⟩ "a").cells⟩ 1 1).1
    (0, 0) (by decide)
  exact h

/-- C2: mine placement is deterministic in `(width, height, mines, seed)` and
the first-clicked cell: two boards agreeing on these fields (and on cell-array
length) receive the identical mine layout from `startBoard`. -/
theorem c2_mine_layout_deterministic (fuel : Nat) (b1 b2 : Board0) (c : Nat × Nat)
    (hw : b1.width = b2.width) (hh : b1.height = b2.height) (hm : b1.mines = b2.mines)
    (hs : b1.seed = b2.seed) (hl : b1.cells.length = b2.cells.length) :
    (startBoard fuel b1 c).cells.map Cell.isMine
      = (startBoard fuel b2 c).cells.map Cell.isMine := by
  have hplace : placeMines fuel b1.width b1.height b1.mines b1.seed (some c)
      = placeMines fuel b2.width b2.height b2.mines b2.seed (some c) := by
    rw [hw, hh, hm, hs]
  unfold startBoard
  rw [startBoardWith_map_isMine, startBoardWith_map_isMine, hplace, hl]

/-- Witness for C2: the two concrete boards get the same mine layout. -/
theorem c2_witness :
    (startBoard 50 detBoardA (0, 0)).cells.map Cell.isMine
      = (startBoard 50 detBoardB (0, 0)).cells.map Cell.isMine :=
  c2_mine_layout_deterministic 50 detBoardA detBoardB (0, 0) rfl rfl rfl rfl rfl

/-! ### The no-revealed-flagged invariant (C9) -/

theorem okCells_set_reveal (cells : List Cell) (i : Nat)
    (h : okCells cells) (hf : (cellAt cells i).flagged = false) :
    okCells (cells.set i { cellAt cells i with revealed := true }) := by
  intro c hc
  rcases List.mem_or_eq_of_mem_set hc with h1 | h1
  · exact h c h1
  · subst h1
    rintro ⟨-, hfl⟩
    simp only [hf] at hfl
    cases hfl

theorem flood_ok (width height : Nat) :
    ∀ (cells : List Cell) (visited : Finset Nat) (work : List (Nat × Nat)),
      okCells cells → okCells (flood width height cells visited work) := by
  intro cells visited work
  induction cells, visited, work using flood.induct width height with
  | case1 cells visited => intro h; rw [flood]; exact h
  | case2 cells visited cx cy rest hin hv ih =>
      intro h
      rw [flood]
      rw [dif_pos hin, dif_pos hv]
      exact ih h
  | case3 cells visited cx cy rest hin hv hbr ih =>
      intro h
      rw [flood]
      rw [dif_pos hin, dif_neg hv, if_pos hbr]
      exact ih h
  | case4 cells visited cx cy rest hin hv hbr hz ih =>
      intro h
      rw [flood]
      rw [dif_pos hin, dif_neg hv, if_neg hbr, if_pos hz]
      refine ih ?_
      refine okCells_set_reveal _ _ h ?_
      simp only [Bool.or_eq_true, not_or, Bool.not_eq_true] at hbr
      exact hbr.1
  | case5 cells visited cx cy rest hin hv hbr hz ih =>
      intro h
      rw [flood]
      rw [dif_pos hin, dif_neg hv, if_neg hbr, if_neg hz]
      refine ih ?_
      refine okCells_set_reveal _ _ h ?_
      simp only [Bool.or_eq_true, not_or, Bool.not_eq_true] at hbr
      exact hbr.1
  | case6 cells visited cx cy rest hin ih =>
      intro h
      rw [flood]
      rw [dif_neg hin]
      exact ih h

theorem chordLoop_ok (width height : Nat) :
    ∀ (items : List (Nat × Nat)) (cells : List Cell) (hit : Bool),
      okCells cells → okCells (chordLoop width height items cells hit).1 := by
  intro items
  induction items with
  | nil => intro cells hit h; exact h
  | cons p rest ih =>
      obtain ⟨nx, ny⟩ := p
      intro cells hit h
      unfold chordLoop
      by_cases h1 : ((cellAt cells (index nx ny width)).flagged ||
          (cellAt cells (index nx ny width)).revealed) = true
      · rw [if_pos h1]
        exact ih _ _ h
      · rw [if_neg h1]
        by_cases h2 : (cellAt cells (index nx ny width)).isMine = true
        · rw [if_pos h2]
          refine ih _ _ (okCells_set_reveal _ _ h ?_)
          simp only [Bool.or_eq_true, not_or, Bool.not_eq_true] at h1
          exact h1.1
        · rw [if_neg h2]
          exact ih _ _ (flood_ok _ _ _ _ _ h)

theorem mem_mapIdxFrom (f : Nat → Cell → Cell) :
    ∀ (l : List Cell) (n : Nat) (c : Cell), c ∈ mapIdxFrom f n l →
      ∃ i c0, c0 ∈ l ∧ c = f i c0 := by
  intro l
  induction l with
  | nil => intro n c hc; cases hc
  | cons a t ih =>
      intro n c hc
      rcases List.mem_cons.mp hc with h | h
      · exact ⟨n, a, List.mem_cons_self _ _, h⟩
      · obtain ⟨i, c0, hc0, he⟩ := ih (n + 1) c h
        exact ⟨i, c0, List.mem_cons_of_mem _ hc0, he⟩

theorem okCells_startBoardWith (b : Board0) (ms : Finset Nat) (h : okCells b.cells) :
    okCells (startBoardWith b ms).cells := by
  intro c hc
  unfold startBoardWith at hc
  simp only [List.mem_map] at hc
  obtain ⟨c1, hc1, hgc⟩ := hc
  obtain ⟨i, c0, hc0, hfc⟩ := mem_mapIdxFrom _ _ _ _ hc1
  subst hfc
  subst hgc
  rintro ⟨h1, h2⟩
  exact h c0 hc0 ⟨h1, h2⟩

theorem okCells_createBoard (difficulty : DifficultyKey) (opts : BoardOpts)
    (randomSeed : String) : okCells (createBoard difficulty opts randomSeed).cells := by
  intro c hc
  unfold createBoard at hc
  simp only [List.mem_map] at hc
  obtain ⟨i, -, he⟩ := hc
  subst he
  rintro ⟨h1, -⟩
  cases h1

theorem okCells_reveal (fuel now : Nat) (s : BoardState) (x y : Nat) (h : okCells s.cells) :
    okCells (reveal fuel now s x y).cells := by
  by_cases h0 : s.status = .won ∨ s.status = .lost
  · simp only [reveal, if_pos h0]; exact h
  · by_cases h1 : ((cellAt s.cells (index x y s.width)).revealed ||
        (cellAt s.cells (index x y s.width)).flagged) = true
    · simp only [reveal, if_neg h0, if_pos h1]; exact h
    · simp only [reveal, if_neg h0, if_neg h1]
      cases hst : s.startedAt with
      | none =>
          simp only [hst]
          exact flood_ok _ _ _ _ _ (okCells_startBoardWith _ _ h)
      | some t =>
          simp only [hst]
          exact flood_ok _ _ _ _ _ h

theorem okCells_toggleFlag (s : BoardState) (x y : Nat) (h : okCells s.cells) :
    okCells (toggleFlag s x y).cells := by
  by_cases h0 : s.status = .won ∨ s.status = .lost
  · simp only [toggleFlag, if_pos h0]; exact h
  · by_cases h1 : (cellAt s.cells (index x y s.width)).revealed = true
    · simp only [toggleFlag, if_neg h0, if_pos h1]; exact h
    · simp only [toggleFlag, if_neg h0, if_neg h1]
      intro c hc
      rcases List.mem_or_eq_of_mem_set hc with h2 | h2
      · exact h c h2
      · subst h2
        rintro ⟨h3, -⟩
        simp only [Bool.not_eq_true] at h1
        rw [h1] at h3
        cases h3

theorem okCells_chordReveal (now : Nat) (s : BoardState) (x y : Nat) (h : okCells s.cells) :
    okCells (chordReveal now s x y).cells := by
  by_cases h0 : s.status = .won ∨ s.status = .lost
  · simp only [chordReveal, if_pos h0]; exact h
  · by_cases h1 : ((!(cellAt s.cells (index x y s.width)).revealed) ||
        (cellAt s.cells (index x y s.width)).adjacent == 0) = true
    · simp only [chordReveal, if_neg h0, if_pos h1]; exact h
    · by_cases h2 : ((neighbors x y s.width s.height).filter
          (fun p => (cellAt s.cells (index p.1 p.2 s.width)).flagged)).length ≠
          (cellAt s.cells (index x y s.width)).adjacent
      · simp only [chordReveal, if_neg h0, if_neg h1, if_pos h2]; exact h
      · simp only [chordReveal, if_neg h0, if_neg h1, if_neg h2]
        exact chordLoop_ok _ _ _ _ _ h

/-- C9: in every board state reachable from `createEmptyState` by any
sequence of `reveal`, `toggleFlag` and `chordReveal` calls, no cell is ever
both revealed and flagged. -/
theorem c9_no_revealed_flagged {s : BoardState} (h : Reachable s) : okCells s.cells := by
  induction h with
  | init difficulty opts randomSeed => exact okCells_createBoard difficulty opts randomSeed
  | rev fuel now x y _ ih => exact okCells_reveal fuel now _ x y ih
  | flag x y _ ih => exact okCells_toggleFlag _ x y ih
  | chord now x y _ ih => exact okCells_chordReveal now _ x y ih

/-- Witness for C9: a short concrete play (flag a cell, then reveal another)
on a 2×2 custom board. -/
theorem c9_witness :
    okCells (reveal 50 9 (toggleFlag
      (createEmptyState .custom ⟨some 2, some 2, some 1, some ("w")⟩ "r") 0 0) 1 1).cells :=
  c9_no_revealed_flagged
    (Reachable.rev 50 9 1 1 (Reachable.flag 0 0 (Reachable.init .custom _ ("r"))))

/-- C4: on a consistent mid-game board (honest zero-adjacent counts, cell
array of size width·height, game not finished, mines already placed), a
reveal move at a hidden unflagged cell — and likewise a chord move at a
revealed numbered cell whose flag count matches — results in status `won`
exactly when the move reveals no mine cell and the revealed-cell count equals
width·height − mines; in particular a revealed count below the non-mine
total is never reported as a win. -/
theorem c4_win_iff (s : BoardState)
    (hC : Consistent s.width s.height s.cells)
    (hlen : s.cells.length = s.width * s.height)
    (hwon : s.status ≠ .won) (hlost : s.status ≠ .lost) :
    (∀ x y t fuel now, x < s.width → y < s.height → s.startedAt = some t →
      (cellAt s.cells (index x y s.width)).revealed = false →
      (cellAt s.cells (index x y s.width)).flagged = false →
      ((reveal fuel now s x y).status = .won ↔
        NoNewMineRevealed s.cells (reveal fuel now s x y).cells ∧
        (revealedCount (reveal fuel now s x y).cells : Int) =
          (s.width * s.height : Int) - (s.mines : Int))) ∧
    (∀ x y now, (cellAt s.cells (index x y s.width)).revealed = true →
      (cellAt s.cells (index x y s.width)).adjacent ≠ 0 →
      ((neighbors x y s.width s.height).filter
        (fun p => (cellAt s.cells (index p.1 p.2 s.width)).flagged)).length =
        (cellAt s.cells (index x y s.width)).adjacent →
      ((chordReveal now s x y).status = .won ↔
        NoNewMineRevealed s.cells (chordReveal now s x y).cells ∧
        (revealedCount (chordReveal now s x y).cells : Int) =
          (s.width * s.height : Int) - (s.mines : Int))) := by
  have h0 : ¬(s.status = .won ∨ s.status = .lost) := by
    rintro (h | h)
    · exact hwon h
    · exact hlost h
  constructor
  · intro x y t fuel now hx hy hst hrev hflag
    have h1 : ¬((cellAt s.cells (index x y s.width)).revealed ||
        (cellAt s.cells (index x y s.width)).flagged) = true := by
      simp [hrev, hflag]
    have hcells : (reveal fuel now s x y).cells =
        flood s.width s.height s.cells ∅ [(x, y)] := by
      simp only [reveal, if_neg h0, if_neg h1, hst]
    have hstatus : (reveal fuel now s x y).status =
        (if (cellAt (flood s.width s.height s.cells ∅ [(x, y)]) (index x y s.width)).isMine
            = true then GameStatus.lost
         else if ((!(cellAt (flood s.width s.height s.cells ∅ [(x, y)])
              (index x y s.width)).isMine) &&
            ((revealedCount (flood s.width s.height s.cells ∅ [(x, y)]) : Int) ==
              (s.width * s.height : Int) - (s.mines : Int))) = true then GameStatus.won
         else GameStatus.playing) := by
      simp only [reveal, if_neg h0, if_neg h1, hst]
    have hfp := flood_fields s.width s.height s.cells ∅ [(x, y)]
    have hidxlen : index x y s.width < s.cells.length := by
      rw [hlen]; exact index_lt_of_lt hx hy
    have hiff : (cellAt (flood s.width s.height s.cells ∅ [(x, y)])
        (index x y s.width)).isMine = false ↔
        NoNewMineRevealed s.cells (flood s.width s.height s.cells ∅ [(x, y)]) := by
      constructor
      · intro hnm i hi hmine hrevi
        have hwork : ∀ p ∈ [(x, y)], (cellAt s.cells (index p.1 p.2 s.width)).isMine
            = false := by
          intro q hq
          have hq' : q = (x, y) := by simpa using hq
          subst hq'
          rw [← (hfp.2 (index x y s.width)).1]
          exact hnm
        rcases flood_safe s.width s.height s.cells ∅ [(x, y)] hC hwork i hrevi with h2 | h2
        · exact h2
        · rw [(hfp.2 i).1] at hmine
          rw [hmine] at h2
          cases h2
      · intro hnn
        cases hmm : (cellAt (flood s.width s.height s.cells ∅ [(x, y)])
            (index x y s.width)).isMine
        · rfl
        · have hrevF := flood_start_revealed s.width s.height s.cells x y hx hy hflag hidxlen
          have hlt : index x y s.width < (flood s.width s.height s.cells ∅ [(x, y)]).length := by
            rw [hfp.1]; exact hidxlen
          have := hnn _ hlt hmm hrevF
          rw [this] at hrev
          cases hrev
    rw [hstatus, hcells]
    constructor
    · intro hwin
      by_cases hhit : (cellAt (flood s.width s.height s.cells ∅ [(x, y)])
          (index x y s.width)).isMine = true
      · rw [if_pos hhit] at hwin
        cases hwin
      · rw [if_neg hhit] at hwin
        have hnm : (cellAt (flood s.width s.height s.cells ∅ [(x, y)])
            (index x y s.width)).isMine = false := by
          cases hmm : (cellAt (flood s.width s.height s.cells ∅ [(x, y)])
              (index x y s.width)).isMine
          · rfl
          · exact absurd hmm hhit
        by_cases hw2 : ((!(cellAt (flood s.width s.height s.cells ∅ [(x, y)])
            (index x y s.width)).isMine) &&
            ((revealedCount (flood s.width s.height s.cells ∅ [(x, y)]) : Int) ==
              (s.width * s.height : Int) - (s.mines : Int))) = true
        · have hcount : (revealedCount (flood s.width s.height s.cells ∅ [(x, y)]) : Int) =
              (s.width * s.height : Int) - (s.mines : Int) := by
            simp only [Bool.and_eq_true, beq_iff_eq] at hw2
            exact hw2.2
          exact ⟨hiff.mp hnm, hcount⟩
        · rw [if_neg hw2] at hwin
          cases hwin
    · rintro ⟨hnn, hcount⟩
      have hnm : (cellAt (flood s.width s.height s.cells ∅ [(x, y)])
          (index x y s.width)).isMine = false := hiff.mpr hnn
      rw [if_neg (by rw [hnm]; exact fun h => Bool.noConfusion h)]
      rw [if_pos (by simp [hnm, hcount])]
  · intro x y now hrevt hadjt hfct
    have h1 : ¬((!(cellAt s.cells (index x y s.width)).revealed) ||
        ((cellAt s.cells (index x y s.width)).adjacent == 0)) = true := by
      simp [hrevt, hadjt]
    have h2 : ¬(((neighbors x y s.width s.height).filter
        (fun p => (cellAt s.cells (index p.1 p.2 s.width)).flagged)).length ≠
        (cellAt s.cells (index x y s.width)).adjacent) := by
      exact fun h => h hfct
    have hcells : (chordReveal now s x y).cells =
        (chordLoop s.width s.height (neighbors x y s.width s.height) s.cells false).1 := by
      simp only [chordReveal, if_neg h0, if_neg h1, if_neg h2]
    have hstatus : (chordReveal now s x y).status =
        (if (chordLoop s.width s.height (neighbors x y s.width s.height) s.cells false).2
            = true then GameStatus.lost
         else if ((!(chordLoop s.width s.height (neighbors x y s.width s.height)
              s.cells false).2) &&
            ((revealedCount (chordLoop s.width s.height (neighbors x y s.width s.height)
              s.cells false).1 : Int) ==
              (s.width * s.height : Int) - (s.mines : Int))) = true then GameStatus.won
         else s.status) := by
      simp only [chordReveal, if_neg h0, if_neg h1, if_neg h2]
    have hfp := chordLoop_fields s.width s.height (neighbors x y s.width s.height) s.cells false
    have hiff : (chordLoop s.width s.height (neighbors x y s.width s.height) s.cells false).2
        = false ↔
        NoNewMineRevealed s.cells
          (chordLoop s.width s.height (neighbors x y s.width s.height) s.cells false).1 := by
      constructor
      · intro hhit i hi hmine hrevi
        rcases chordLoop_safe s.width s.height _ _ hC hhit i hrevi with h3 | h3
        · exact h3
        · rw [(hfp.2 i).1] at hmine
          rw [hmine] at h3
          cases h3
      · intro hnn
        cases hmm : (chordLoop s.width s.height (neighbors x y s.width s.height)
            s.cells false).2
        · rfl
        · obtain ⟨i, hlen2, hmine, hrev2, hfin⟩ := chordLoop_hit_new_mine s.width s.height _ _ hmm
          have hlt : i < (chordLoop s.width s.height (neighbors x y s.width s.height)
              s.cells false).1.length := by
            rw [hfp.1]; exact hlen2
          have := hnn i hlt (by rw [(hfp.2 i).1]; exact hmine) hfin
          rw [this] at hrev2
          cases hrev2
    rw [hstatus, hcells]
    constructor
    · intro hwin
      by_cases hhit : (chordLoop s.width s.height (neighbors x y s.width s.height)
          s.cells false).2 = true
      · rw [if_pos hhit] at hwin
        cases hwin
      · rw [if_neg hhit] at hwin
        have hhf : (chordLoop s.width s.height (neighbors x y s.width s.height)
            s.cells false).2 = false := by
          cases hmm : (chordLoop s.width s.height (neighbors x y s.width s.height)
              s.cells false).2
          · rfl
          · exact absurd hmm hhit
        by_cases hw2 : ((!(chordLoop s.width s.height (neighbors x y s.width s.height)
            s.cells false).2) &&
            ((revealedCount (chordLoop s.width s.height (neighbors x y s.width s.height)
              s.cells false).1 : Int) ==
              (s.width * s.height : Int) - (s.mines : Int))) = true
        · have hcount : (revealedCount (chordLoop s.width s.height
              (neighbors x y s.width s.height) s.cells false).1 : Int) =
              (s.width * s.height : Int) - (s.mines : Int) := by
            simp only [Bool.and_eq_true, beq_iff_eq] at hw2
            exact hw2.2
          exact ⟨hiff.mp hhf, hcount⟩
        · rw [if_neg hw2] at hwin
          exact absurd hwin hwon
    · rintro ⟨hnn, hcount⟩
      have hhf : (chordLoop s.width s.height (neighbors x y s.width s.height)
          s.cells false).2 = false := hiff.mpr hnn
      rw [if_neg (by rw [hhf]; exact fun h => Bool.noConfusion h)]
      rw [if_pos (by simp [hhf, hcount])]

/-- Witness for C4 at the concrete consistent mid-game state `midState`:
the reveal move at (1,0) and the chord move at (0,0). -/
theorem c4_witness :
    ((reveal 9 7 midState 1 0).status = .won ↔
      NoNewMineRevealed midState.cells (reveal 9 7 midState 1 0).cells ∧
      (revealedCount (reveal 9 7 midState 1 0).cells : Int) =
        (midState.width * midState.height : Int) - (midState.mines : Int)) ∧
    ((chordReveal 7 midState 0 0).status = .won ↔
      NoNewMineRevealed midState.cells (chordReveal 7 midState 0 0).cells ∧
      (revealedCount (chordReveal 7 midState 0 0).cells : Int) =
        (midState.width * midState.height : Int) - (midState.mines : Int)) := by
  have h := c4_win_iff midState (by decide) (by decide) (by decide) (by decide)
  exact ⟨h.1 1 0 0 9 7 (by decide) (by decide) rfl (by decide) (by decide),
    h.2 0 0 7 (by decide) (by decide) (by decide)⟩

/-- C8 at its failing input: on a 10×10 board with seed "bg1yl3" the sampling
loop completes and the returned mine set contains the index 100 = 10·10,
which is not the index of any cell.  (The 36th output of the seeded generator
is 2^32 − 1, so `rng()` is exactly 1 and `Math.floor(rng() * total)` is
`total`.) -/
theorem c8_out_of_range_mine_index :
    (placeMines 100 10 10 40 "bg1yl3" none).2 = true ∧
    100 ∈ (placeMines 100 10 10 40 "bg1yl3" none).1 ∧
    ¬(100 < 10 * 10) := by
  refine ⟨by decide, by decide, by decide⟩

end Minesweeper

/-- C5: In the spec-modelled step log, the `seq` values of the accepted steps
of a match are exactly `1, 2, …, n` in acceptance order — a strictly
increasing positive sequence per match across all players: each accepted
step gets `max(seq) + 1`. -/
theorem c5_seq_values_dense (players : List Nat) :
    (MatchLog.runSteps players).map MatchLog.Step.seq = List.range' 1 players.length := by
  have := MatchLog.runSteps_from players [] 0 (by simp)
  simpa [MatchLog.runSteps] using this

/-- C6 (amended): `write` upserts exactly when the submission is valid
(non-negative time, recognised difficulty) and either no entry is stored
under `(difficulty, name)`, the stored time is strictly greater, or the
stored time is equal and the stored timestamp exceeds the current one;
in every other case the store is unchanged. -/
theorem c6_write_spec (store : Scoreboard.Store) (name diff : String) (time : Int)
    (now : String) :
    Scoreboard.write store name diff time now = Scoreboard.writeSpec store name diff time now := by
  by_cases hv : 0 ≤ time ∧ Scoreboard.validDiff diff
  · have hcond : ¬(time < 0 ∨ ¬(diff = "Easy" ∨ diff = "Medium" ∨ diff = "Hard" ∨
        diff = "Hell")) := by
      rintro (h | h)
      · omega
      · exact h hv.2
    cases hst : store (diff, name) with
    | none =>
        have h3 : 0 ≤ time ∧ Scoreboard.validDiff diff ∧
            Scoreboard.shouldUpsert (none : Option Scoreboard.Entry) time now :=
          ⟨hv.1, hv.2, Or.inl rfl⟩
        unfold Scoreboard.write Scoreboard.writeSpec
        rw [if_neg hcond]
        simp only [hst]
        rw [if_pos h3]
        simp
    | some e =>
        unfold Scoreboard.write Scoreboard.writeSpec
        rw [if_neg hcond]
        simp only [hst]
        by_cases hbetter : time < e.time ∨ (e.time = time ∧ Scoreboard.tsGT e.timestamp now = true)
        · have h1 : (decide (time < e.time) ||
              (decide (e.time = time) && Scoreboard.tsGT e.timestamp now)) = true := by
            rcases hbetter with h | hh
            · simp [h]
            · simp [hh.1, hh.2]
          have h3 : 0 ≤ time ∧ Scoreboard.validDiff diff ∧
              Scoreboard.shouldUpsert (some e) time now :=
            ⟨hv.1, hv.2, Or.inr ⟨e, rfl, hbetter⟩⟩
          rw [if_pos h1, if_pos h3]
        · have h1 : ¬((decide (time < e.time) ||
              (decide (e.time = time) && Scoreboard.tsGT e.timestamp now)) = true) := by
            simp only [Bool.or_eq_true, decide_eq_true_eq, Bool.and_eq_true]
            rintro (h | ⟨h, h2⟩)
            · exact hbetter (Or.inl h)
            · exact hbetter (Or.inr ⟨h, h2⟩)
          have h3 : ¬(0 ≤ time ∧ Scoreboard.validDiff diff ∧
              Scoreboard.shouldUpsert (some e) time now) := by
            rintro ⟨-, -, hup⟩
            rcases hup with h | ⟨e', he', hcmp⟩
            · cases h
            · cases he'; exact hbetter hcmp
          rw [if_neg h1, if_neg h3]
  · have hcond : time < 0 ∨ ¬(diff = "Easy" ∨ diff = "Medium" ∨ diff = "Hard" ∨
        diff = "Hell") := by
      by_cases ht : 0 ≤ time
      · exact Or.inr (fun h => hv ⟨ht, h⟩)
      · exact Or.inl (by omega)
    have h3 : ¬(0 ≤ time ∧ Scoreboard.validDiff diff ∧
        Scoreboard.shouldUpsert (store (diff, name)) time now) :=
      fun h => hv ⟨h.1, h.2.1⟩
    unfold Scoreboard.write Scoreboard.writeSpec
    rw [if_pos hcond, if_neg h3]

/-- Counterexample to C6 as stated: (1) a submission with negative time and no
existing entry is NOT upserted (the claim demands an upsert whenever no entry
exists); (2) a submission whose time EQUALS the stored one is upserted when
the stored timestamp exceeds the current one (the claim demands the store be
left unchanged unless the stored time is strictly greater). -/
theorem c6_counterexample :
    Scoreboard.write emptyStore ("bob") ("Easy") (-1) ("2026-10-11T00:00:00.000Z") ("Easy", "bob")
        = none ∧
    Scoreboard.write futureStore ("bob") ("Easy") 5 ("2026-10-11T00:00:00.000Z") ("Easy", "bob")
        = some ⟨"bob", "Easy", 5, some "2026-10-11T00:00:00.000Z"⟩ := by
  constructor
  · rfl
  · decide

/-- C7: the leaderboard view presented by `load` is sorted by ascending time,
with ties ordered by ascending (earlier-first) timestamp. -/
theorem c7_load_sorted (entries : List Scoreboard.Entry) :
    (Scoreboard.load entries).Pairwise (fun a b =>
      a.time < b.time ∨ (a.time = b.time ∧
        Scoreboard.strLe (Scoreboard.tsD a.timestamp) (Scoreboard.tsD b.timestamp) = true)) := by
  have hs := List.sorted_mergeSort Scoreboard.scoreLe_trans Scoreboard.scoreLe_total
    (entries.filter (fun e => decide (0 ≤ e.time)))
  have ht : (Scoreboard.load entries).Pairwise (fun a b => Scoreboard.scoreLe a b = true) :=
    List.Pairwise.sublist (List.take_sublist _ _) hs
  refine ht.imp ?_
  intro a b h
  by_cases he : a.time = b.time
  · simp only [Scoreboard.scoreLe, if_pos he] at h
    exact Or.inr ⟨he, h⟩
  · simp only [Scoreboard.scoreLe, if_neg he, decide_eq_true_eq] at h
    exact Or.inl h
